import Mathlib

/-!
Verification of the sanitization, filtering and layout logic of the
k8s-back backup tool (src/main.go).  The program manipulates Kubernetes
objects as `map[string]interface{}` values; we embed those as association
lists of `String × Value`, where `Value` is the tagged dynamic value type.
Go map mutation (`delete`, in-place update through an alias) is rendered as
pure operations producing new lists; Go's shallow copy of the top-level map
is the identity in this pure setting.
-/

namespace K8sBack

/-- Dynamic value type for decoded Kubernetes objects: the shapes
`interface{}` takes in the program (strings, numbers, booleans, null,
string-keyed maps, arrays). -/
inductive Value where
  | str : String → Value
  | num : Int → Value
  | boolV : Bool → Value
  | nul : Value
  | obj : List (String × Value) → Value
  | arr : List Value → Value

/-- A Go `map[string]interface{}`, embedded as an association list. -/
abbrev Obj := List (String × Value)

/-- Go map read `m[k]`: the value stored at key `k`, if present. -/
def lookupKey (k : String) : Obj → Option Value
  | [] => none
  | (k', v) :: rest => if k' = k then some v else lookupKey k rest

/-- Go `delete(m, k)`: remove the entry at key `k`. -/
def eraseKey (k : String) : Obj → Obj
  | [] => []
  | (a, b) :: rest => if a = k then eraseKey k rest else (a, b) :: eraseKey k rest

/-- Go in-place update `m[k] = v` of an existing key (in `CleanResource`
the updated key is always already present, because the value written is a
transform of the value just read through the same alias). -/
def setKey (k : String) (v : Value) : Obj → Obj
  | [] => []
  | (a, b) :: rest => if a = k then (k, v) :: setKey k v rest else (a, b) :: setKey k v rest

/-- Go loop `for _, field := range ks { delete(m, field) }`. -/
def eraseKeys : List String → Obj → Obj
  | [], l => l
  | k :: ks, l => eraseKeys ks (eraseKey k l)

/-- The server-assigned metadata fields removed by `CleanResource`
(src/main.go lines 160-165). -/
def serverFields : List String :=
  ["creationTimestamp", "resourceVersion", "selfLink",
   "uid", "managedFields", "generation"]

/-- The two noisy annotation keys deleted by `CleanResource`
(src/main.go lines 169-170), applied in source order. -/
def stripAnnotationKeys (a : Obj) : Obj :=
  eraseKey "deployment.kubernetes.io/revision"
    (eraseKey "kubectl.kubernetes.io/last-applied-configuration" a)

/-- The annotations cleanup of `CleanResource` (src/main.go lines 167-176):
drop the two known noisy annotation keys, and drop the whole annotations
map if it became empty. -/
def cleanAnnotations (m : Obj) : Obj :=
  match lookupKey "annotations" m with
  | some (Value.obj a) =>
    if (stripAnnotationKeys a).isEmpty then eraseKey "annotations" m
    else setKey "annotations" (Value.obj (stripAnnotationKeys a)) m
  | _ => m

/-- Empty-map elision for one metadata field (src/main.go lines 178-185):
delete the field when it is present as an empty map. -/
def elideEmpty (f : String) (m : Obj) : Obj :=
  match lookupKey f m with
  | some (Value.obj e) => if e.isEmpty then eraseKey f m else m
  | _ => m

/-- The metadata block of `CleanResource` (src/main.go lines 156-186),
as the transform applied to the metadata map itself. -/
def cleanMetadata (m : Obj) : Obj :=
  elideEmpty "finalizers" (elideEmpty "labels"
    (cleanAnnotations (eraseKeys serverFields m)))

/-- The metadata phase of `CleanResource`: when `metadata` is present as a
map, it is transformed in place (rendered here as storing the transformed
map back at the `metadata` key). -/
def metadataPhase (c : Obj) : Obj :=
  match lookupKey "metadata" c with
  | some (Value.obj m) => setKey "metadata" (Value.obj (cleanMetadata m)) c
  | _ => c

/-- Go `kind, _ := cleaned["kind"].(string)`: the declared kind, or the
empty string when absent or not a string. -/
def kindOf (c : Obj) : String :=
  match lookupKey "kind" c with
  | some (Value.str s) => s
  | _ => ""

/-- Kind-specific spec cleanup: when `spec` is present as a map, delete the
given fields from it (rendered as storing the shrunken map back). -/
def specErase (ks : List String) (c : Obj) : Obj :=
  match lookupKey "spec" c with
  | some (Value.obj sp) => setKey "spec" (Value.obj (eraseKeys ks sp)) c
  | _ => c

/-- The `switch kind` dispatch of `CleanResource` (src/main.go lines
192-223). -/
def kindPhase (c : Obj) : Obj :=
  if kindOf c = "Service" then
    specErase ["clusterIP", "clusterIPs", "ipFamilies", "ipFamilyPolicy"] c
  else if kindOf c = "Deployment" then
    specErase ["progressDeadlineSeconds", "revisionHistoryLimit", "replicas"] c
  else if kindOf c = "StatefulSet" then
    specErase ["revisionHistoryLimit", "replicas"] c
  else if kindOf c = "PersistentVolume" then
    specErase ["claimRef"] c
  else if kindOf c = "Pod" then
    eraseKey "spec" c
  else c

/-- `CleanResource` (src/main.go lines 146-226): shallow copy, metadata
normalization, status removal, then kind-specific spec cleanup. -/
def CleanResource (x : Obj) : Obj :=
  kindPhase (eraseKey "status" (metadataPhase x))

/-! ### The secret eligibility filter -/

/-- Does `s` start with pattern `pat`?  (Char-list core of Go
`strings.HasPrefix`.) -/
def lcStarts : List Char → List Char → Bool
  | [], _ => true
  | _ :: _, [] => false
  | p :: ps, c :: cs => p == c && lcStarts ps cs

/-- Does `s` contain pattern `pat` as a contiguous run?  (Char-list core of
Go `strings.Contains`.) -/
def lcContains (pat : List Char) : List Char → Bool
  | [] => lcStarts pat []
  | c :: cs => lcStarts pat (c :: cs) || lcContains pat cs

/-- Go `strings.Contains(s, sub)`. -/
def goContains (s sub : String) : Bool := lcContains sub.data s.data

/-- Go `strings.HasPrefix(s, pre)`. -/
def goStartsWith (s pre : String) : Bool := lcStarts pre.data s.data

/-- Go `x, _ := v.(string)`: the string value, or `""` when the assertion
fails. -/
def strAsString : Option Value → String
  | some (Value.str s) => s
  | _ => ""

/-- The excluded Secret types of `ShouldBackupSecret` (src/main.go lines
245-251), in source order: Docker registry config, service-account token,
basic auth, TLS, Helm release storage. -/
def excludedSecretTypes : List String :=
  ["kubernetes.io/dockerconfigjson", "kubernetes.io/service-account-token",
   "kubernetes.io/basic-auth", "kubernetes.io/tls", "helm.sh/release.v1"]

/-- `ShouldBackupSecret` (src/main.go lines 229-259): a Secret is backed up
unless its name matches a token naming convention or a Helm storage
prefix, or its declared type is one of the excluded system types.  A
missing or non-map `metadata` yields false (the Go code reads name/type
through failed type assertions only after `metadata` asserts). -/
def ShouldBackupSecret (secretObj : Obj) : Bool :=
  match lookupKey "metadata" secretObj with
  | some (Value.obj metadata) =>
    let name := strAsString (lookupKey "name" metadata)
    let secretType := strAsString (lookupKey "type" secretObj)
    if goContains name "default-token" ||
        goStartsWith name "sh.helm.release.v1." ||
        goContains name "-token-" then false
    else if excludedSecretTypes.contains secretType then false
    else true
  | _ => false

/-! ### Text normalization of string payload values -/

/-- Go `strings.ReplaceAll(s, old, new)` for a two-character pattern
`[a, b]` and a one-character replacement `[r]` (the only shape used by
`processStringMapValues`): left-to-right, non-overlapping. -/
def repl2 (a b r : Char) : List Char → List Char
  | [] => []
  | [c] => [c]
  | x :: y :: rest =>
    if x = a ∧ y = b then r :: repl2 a b r rest
    else x :: repl2 a b r (y :: rest)

/-- Go `strings.ReplaceAll(s, old, new)` for a one-character pattern and
one-character replacement (the non-breaking-space case). -/
def repl1 (a r : Char) (s : List Char) : List Char :=
  s.map fun c => if c = a then r else c

/-- The non-breaking space character `U+00A0`. -/
def nbspChar : Char := Char.ofNat 160

/-- The five `strings.ReplaceAll` steps applied to one string value by
`processStringMapValues` (src/main.go lines 270-275), in source order:
CRLF to LF, then decode the literal newline, tab and carriage-return
escapes, then non-breaking space to space. -/
def normalizeGoString (s : String) : String :=
  String.mk (repl1 nbspChar ' '
    (repl2 '\\' 'r' '\r'
      (repl2 '\\' 't' '\t'
        (repl2 '\\' 'n' '\n'
          (repl2 '\r' '\n' '\n' s.data)))))

/-- `processStringMapValues` (src/main.go lines 262-284): normalize every
string value, recurse into map values, pass everything else through. -/
def processStringMapValues : Obj → Obj
  | [] => []
  | (k, Value.str s) :: rest =>
    (k, Value.str (normalizeGoString s)) :: processStringMapValues rest
  | (k, Value.obj sub) :: rest =>
    (k, Value.obj (processStringMapValues sub)) :: processStringMapValues rest
  | (k, v) :: rest => (k, v) :: processStringMapValues rest

/-- No adjacent pair `a, b` occurs in the char list (used to state that a
literal two-character escape sequence is absent from a string). -/
def noPair (a b : Char) : List Char → Bool
  | [] => true
  | [_] => true
  | x :: y :: rest => !(x = a ∧ y = b : Bool) && noPair a b (y :: rest)

/-- The string carries no literal backslash escape for newline, tab or
carriage-return. -/
def noEscapes (s : String) : Bool :=
  noPair '\\' 'n' s.data && noPair '\\' 't' s.data && noPair '\\' 'r' s.data

/-- Every string value reachable through nested maps satisfies
`noEscapes`.  (Mirrors the recursion scope of `processStringMapValues`:
strings inside arrays are not visited.) -/
def allStringsClean : Obj → Bool
  | [] => true
  | (_, Value.str s) :: rest => noEscapes s && allStringsClean rest
  | (_, Value.obj sub) :: rest => allStringsClean sub && allStringsClean rest
  | (_, _) :: rest => allStringsClean rest

/-! ### The kind registry and the per-kind traversal step -/

/-- `ResourceInfo` (src/main.go lines 26-31), with the group, version and
plural resource name of the GVR inlined. -/
structure ResourceInfo where
  kind : String
  group : String
  version : String
  resource : String
  corePath : Bool
  namespaced : Bool

/-- The `resourceMap` registry (src/main.go lines 34-143). -/
def resourceRegistry : List (String × ResourceInfo) :=
  [("configmaps", ⟨"ConfigMap", "", "v1", "configmaps", true, true⟩),
   ("deployments", ⟨"Deployment", "apps", "v1", "deployments", false, true⟩),
   ("secrets", ⟨"Secret", "", "v1", "secrets", true, true⟩),
   ("services", ⟨"Service", "", "v1", "services", true, true⟩),
   ("persistentvolumeclaims",
     ⟨"PersistentVolumeClaim", "", "v1", "persistentvolumeclaims", true, true⟩),
   ("statefulsets", ⟨"StatefulSet", "apps", "v1", "statefulsets", false, true⟩),
   ("horizontalpodautoscalers",
     ⟨"HorizontalPodAutoscaler", "autoscaling", "v2",
       "horizontalpodautoscalers", false, true⟩),
   ("cronjobs", ⟨"CronJob", "batch", "v1", "cronjobs", false, true⟩),
   ("jobs", ⟨"Job", "batch", "v1", "jobs", false, true⟩),
   ("persistentvolumes",
     ⟨"PersistentVolume", "", "v1", "persistentvolumes", true, false⟩),
   ("serviceaccounts",
     ⟨"ServiceAccount", "", "v1", "serviceaccounts", true, true⟩),
   ("ingresses", ⟨"Ingress", "networking.k8s.io", "v1", "ingresses", false, true⟩)]

/-- Registry lookup by plural resource-type name. -/
def findResource (resType : String) : Option ResourceInfo :=
  match resourceRegistry.find? (fun p => p.1 == resType) with
  | some p => some p.2
  | none => none

/-- `resource.GetName()`: the object's `metadata.name` string. -/
def nameOf (r : Obj) : String :=
  match lookupKey "metadata" r with
  | some (Value.obj md) => strAsString (lookupKey "name" md)
  | _ => ""

/-- Filesystem effect of one (namespace, kind) step: whether the kind
directory was created, and the files written into it. -/
structure KindOutcome where
  dirCreated : Bool
  files : List String

/-- The per-kind body of the namespaced backup loop (src/main.go lines
476-586) for one resource type: registry lookup, access gate, secret
skip flag, namespaced check, listing (`none` models a failed List call),
the emptiness check, kind-directory creation, the secret eligibility
filter, and the per-object writes (serialization and write failures are
not modeled: every surviving object yields its `<name>.yaml` file). -/
def backupKindStep (skipSecrets : Bool) (canList : Bool)
    (resType : String) (listed : Option (List Obj)) : KindOutcome :=
  match findResource resType with
  | none => ⟨false, []⟩
  | some info =>
    if !canList then ⟨false, []⟩
    else if skipSecrets && resType == "secrets" then ⟨false, []⟩
    else if !info.namespaced then ⟨false, []⟩
    else
      match listed with
      | none => ⟨false, []⟩
      | some resources =>
        if resources.isEmpty then ⟨false, []⟩
        else
          let survivors :=
            if resType == "secrets" then resources.filter ShouldBackupSecret
            else resources
          ⟨true, survivors.map (fun r => nameOf r ++ ".yaml")⟩

/-! ### The per-object document written by the namespaced loop -/

/-- One optional field of the `resourceYAML` document: Go
`if v, has := obj[k]; has { resourceYAML[k] = v }` (src/main.go lines
550-558). -/
def optField (k : String) (obj : Obj) (base : Obj) : Obj :=
  match lookupKey k obj with
  | some v => base ++ [(k, v)]
  | none => base

/-- The ConfigMap-only normalization of the document's `data` map
(src/main.go lines 560-565). -/
def configMapNormalize (resType : String) (doc : Obj) : Obj :=
  if resType == "configmaps" then
    match lookupKey "data" doc with
    | some (Value.obj d) =>
      setKey "data" (Value.obj (processStringMapValues d)) doc
    | _ => doc
  else doc

/-- The `resourceYAML` document assembled for a sanitized namespaced
object (src/main.go lines 542-565): fixed `apiVersion`, `kind` and
`metadata` entries (Go map reads default to nil for absent keys), the
optional `spec`, `data` and `rules` entries, and the ConfigMap string
normalization applied to `data`. -/
def buildResourceYAML (resType : String) (obj : Obj) : Obj :=
  configMapNormalize resType
    (optField "rules" obj (optField "data" obj (optField "spec" obj
      [("apiVersion", (lookupKey "apiVersion" obj).getD Value.nul),
       ("kind", (lookupKey "kind" obj).getD Value.nul),
       ("metadata", (lookupKey "metadata" obj).getD Value.nul)])))

/-- The top-level keys of a document. -/
def keysOf (l : Obj) : List String := l.map Prod.fst

/-! ### Path helpers and concrete objects used by witnesses -/

/-- Unwrap an optional value as a map (empty when absent or not a map). -/
def getObj : Option Value → Obj
  | some (Value.obj l) => l
  | _ => []

/-- Unwrap an optional value as an array (empty when absent or not one). -/
def getArr : Option Value → List Value
  | some (Value.arr l) => l
  | _ => []

/-- First element of an array, as a map. -/
def headObj : List Value → Obj
  | Value.obj o :: _ => o
  | _ => []

/-- The field named `sub` of the object's `spec` map. -/
def specSub (c : Obj) (sub : String) : Option Value :=
  match lookupKey "spec" c with
  | some (Value.obj sp) => lookupKey sub sp
  | _ => none

/-- A ClusterIP Service carrying a `nodePort`: `CleanResource` keeps the
`nodePort` even though the type is not NodePort. -/
def svcClusterIP : Obj :=
  [("apiVersion", Value.str "v1"), ("kind", Value.str "Service"),
   ("metadata", Value.obj [("name", Value.str "web")]),
   ("spec", Value.obj
     [("type", Value.str "ClusterIP"),
      ("clusterIP", Value.str "10.0.0.7"),
      ("ports", Value.arr
        [Value.obj [("port", Value.num 80), ("nodePort", Value.num 30080)]])])]

/-- A NodePort Service, used to witness the amended Service-port theorem. -/
def svcNodePort : Obj :=
  [("kind", Value.str "Service"),
   ("metadata", Value.obj [("name", Value.str "edge")]),
   ("spec", Value.obj
     [("type", Value.str "NodePort"),
      ("ports", Value.arr
        [Value.obj [("port", Value.num 443), ("nodePort", Value.num 31443)]])])]

/-- A Deployment whose pod-template metadata still carries server-assigned
fields. -/
def depWithTemplateMeta : Obj :=
  [("kind", Value.str "Deployment"),
   ("metadata", Value.obj [("name", Value.str "api")]),
   ("spec", Value.obj
     [("replicas", Value.num 3),
      ("selector", Value.obj
        [("matchLabels", Value.obj [("app", Value.str "api")])]),
      ("template", Value.obj
        [("metadata", Value.obj
          [("creationTimestamp", Value.str "2024-01-01T00:00:00Z"),
           ("labels", Value.obj [("app", Value.str "api")])]),
         ("spec", Value.obj [("containers", Value.arr [])])])])]

/-- A StatefulSet with a selector, used to witness selector round-trip. -/
def stsWithSelector : Obj :=
  [("kind", Value.str "StatefulSet"),
   ("metadata", Value.obj [("name", Value.str "db")]),
   ("spec", Value.obj
     [("replicas", Value.num 2),
      ("selector", Value.obj
        [("matchLabels", Value.obj [("app", Value.str "db")])]),
      ("serviceName", Value.str "db")])]

/-- An ordinary user Secret with an Opaque type. -/
def secretOpaque : Obj :=
  [("kind", Value.str "Secret"),
   ("metadata", Value.obj [("name", Value.str "app-config")]),
   ("type", Value.str "Opaque"),
   ("data", Value.obj [("key", Value.str "dmFsdWU=")])]

/-- The metadata map of `secretOpaque`. -/
def secretOpaqueMeta : Obj := [("name", Value.str "app-config")]

/-- A system-generated service-account token Secret: excluded by name and
by type. -/
def secretSAToken : Obj :=
  [("kind", Value.str "Secret"),
   ("metadata", Value.obj [("name", Value.str "default-token-x2abc")]),
   ("type", Value.str "kubernetes.io/service-account-token")]

/-- A Pod object with a spec. -/
def podWithSpec : Obj :=
  [("kind", Value.str "Pod"),
   ("metadata", Value.obj [("name", Value.str "worker")]),
   ("spec", Value.obj [("containers", Value.arr [])]),
   ("status", Value.obj [("phase", Value.str "Running")])]

/-- A deployment resource used to witness the amended traversal theorem. -/
def depListed : Obj :=
  [("kind", Value.str "Deployment"),
   ("metadata", Value.obj [("name", Value.str "api")])]

/-- A payload map whose single string value carries the literal newline,
tab and carriage-return escapes plus a CRLF sequence. -/
def payloadEscapes : Obj := [("k", Value.str "\\n\\t\\r\r\n")]

/-! ### Basic lemmas about the map operations -/

theorem lookupKey_eraseKey_self (k : String) (l : Obj) :
    lookupKey k (eraseKey k l) = none := by
  induction l with
  | nil => rfl
  | cons p rest ih =>
    obtain ⟨a, b⟩ := p
    by_cases h : a = k
    · simpa [eraseKey, h] using ih
    · simpa [eraseKey, h, lookupKey] using ih

theorem lookupKey_eraseKey_ne (k k' : String) (l : Obj) (h : k ≠ k') :
    lookupKey k (eraseKey k' l) = lookupKey k l := by
  induction l with
  | nil => rfl
  | cons p rest ih =>
    obtain ⟨a, b⟩ := p
    by_cases hp : a = k'
    · simpa [eraseKey, hp, lookupKey, Ne.symm h] using ih
    · by_cases hk : a = k
      · simp [eraseKey, hp, hk, lookupKey, h]
      · simpa [eraseKey, hp, hk, lookupKey] using ih

theorem lookupKey_setKey_self (k : String) (v : Value) (l : Obj) :
    lookupKey k (setKey k v l) =
      if (lookupKey k l).isSome then some v else none := by
  induction l with
  | nil => rfl
  | cons p rest ih =>
    obtain ⟨a, b⟩ := p
    by_cases hp : a = k
    · simp [setKey, lookupKey, hp]
    · simpa [setKey, lookupKey, hp] using ih

theorem lookupKey_setKey_ne (k k' : String) (v : Value) (l : Obj)
    (h : k ≠ k') : lookupKey k (setKey k' v l) = lookupKey k l := by
  induction l with
  | nil => rfl
  | cons p rest ih =>
    obtain ⟨a, b⟩ := p
    by_cases hp : a = k'
    · simpa [setKey, lookupKey, hp, Ne.symm h] using ih
    · by_cases hk : a = k
      · simp [setKey, lookupKey, hp, hk, h]
      · simpa [setKey, lookupKey, hp, hk] using ih

theorem eraseKey_eq_self_of_lookup_none (k : String) (l : Obj)
    (h : lookupKey k l = none) : eraseKey k l = l := by
  induction l with
  | nil => rfl
  | cons p rest ih =>
    obtain ⟨a, b⟩ := p
    by_cases hp : a = k
    · simp [lookupKey, hp] at h
    · simp only [lookupKey, if_neg hp] at h
      simpa [eraseKey, hp] using ih h

theorem setKey_setKey_self (k : String) (v : Value) (l : Obj) :
    setKey k v (setKey k v l) = setKey k v l := by
  induction l with
  | nil => rfl
  | cons p rest ih =>
    obtain ⟨a, b⟩ := p
    by_cases hp : a = k
    · simpa [setKey, hp] using ih
    · simpa [setKey, hp] using ih

theorem setKey_eq_self_of (k : String) (v : Value) (l : Obj)
    (h : ∀ p ∈ l, p.1 = k → p.2 = v) : setKey k v l = l := by
  induction l with
  | nil => rfl
  | cons p rest ih =>
    obtain ⟨a, b⟩ := p
    have hrest : setKey k v rest = rest :=
      ih fun q hq => h q (List.mem_cons_of_mem _ hq)
    by_cases hp : a = k
    · have hv : b = v := h (a, b) (List.mem_cons_self _ rest) hp
      simp [setKey, hp, hrest, hv]
    · simp [setKey, hp, hrest]

theorem mem_setKey_val (k : String) (v : Value) (l : Obj) :
    ∀ p ∈ setKey k v l, p.1 = k → p.2 = v := by
  induction l with
  | nil => intro p hp; simp [setKey] at hp
  | cons q rest ih =>
    obtain ⟨a, b⟩ := q
    intro p hp hk
    by_cases h : a = k
    · simp only [setKey, if_pos h] at hp
      rcases List.mem_cons.mp hp with hEq | hMem
      · rw [hEq]
      · exact ih p hMem hk
    · simp only [setKey, if_neg h] at hp
      rcases List.mem_cons.mp hp with hEq | hMem
      · rw [hEq] at hk
        exact absurd hk h
      · exact ih p hMem hk

theorem mem_eraseKey_sub (k : String) (l : Obj) :
    ∀ p ∈ eraseKey k l, p ∈ l := by
  induction l with
  | nil => intro p hp; simp [eraseKey] at hp
  | cons q rest ih =>
    obtain ⟨a, b⟩ := q
    intro p hp
    by_cases h : a = k
    · simp only [eraseKey, if_pos h] at hp
      exact List.mem_cons_of_mem _ (ih p hp)
    · simp only [eraseKey, if_neg h] at hp
      rcases List.mem_cons.mp hp with hEq | hMem
      · exact hEq ▸ List.mem_cons_self _ _
      · exact List.mem_cons_of_mem _ (ih p hMem)

theorem mem_setKey_other (k : String) (v : Value) (l : Obj) :
    ∀ p ∈ setKey k v l, p.1 ≠ k → p ∈ l := by
  induction l with
  | nil => intro p hp; simp [setKey] at hp
  | cons q rest ih =>
    obtain ⟨a, b⟩ := q
    intro p hp hne
    by_cases h : a = k
    · simp only [setKey, if_pos h] at hp
      rcases List.mem_cons.mp hp with hEq | hMem
      · rw [hEq] at hne
        simp at hne
      · exact List.mem_cons_of_mem _ (ih p hMem hne)
    · simp only [setKey, if_neg h] at hp
      rcases List.mem_cons.mp hp with hEq | hMem
      · exact hEq ▸ List.mem_cons_self _ _
      · exact List.mem_cons_of_mem _ (ih p hMem hne)

/-! ### Lemmas about `eraseKeys` and the phases of `CleanResource` -/

theorem lookupKey_eraseKeys_notMem (k : String) (ks : List String) (l : Obj)
    (h : k ∉ ks) : lookupKey k (eraseKeys ks l) = lookupKey k l := by
  induction ks generalizing l with
  | nil => rfl
  | cons k' rest ih =>
    have hne : k ≠ k' := fun hk => h (hk ▸ List.mem_cons_self _ _)
    have hrest : k ∉ rest := fun hk => h (List.mem_cons_of_mem _ hk)
    simp only [eraseKeys]
    rw [ih _ hrest, lookupKey_eraseKey_ne _ _ _ hne]

theorem lookupKey_eraseKeys_mem (k : String) (ks : List String) (l : Obj)
    (h : k ∈ ks) : lookupKey k (eraseKeys ks l) = none := by
  induction ks generalizing l with
  | nil => exact absurd h (List.not_mem_nil k)
  | cons k' rest ih =>
    by_cases hk : k ∈ rest
    · simpa only [eraseKeys] using ih _ hk
    · have : k = k' := by
        rcases List.mem_cons.mp h with hEq | hMem
        · exact hEq
        · exact absurd hMem hk
      subst this
      simp only [eraseKeys]
      rw [lookupKey_eraseKeys_notMem _ _ _ hk, lookupKey_eraseKey_self]

theorem eraseKeys_eq_self_of (ks : List String) (l : Obj)
    (h : ∀ k ∈ ks, lookupKey k l = none) : eraseKeys ks l = l := by
  induction ks with
  | nil => rfl
  | cons k rest ih =>
    have h1 : eraseKey k l = l :=
      eraseKey_eq_self_of_lookup_none _ _ (h k (List.mem_cons_self _ _))
    simp only [eraseKeys, h1]
    exact ih fun k' hk' => h k' (List.mem_cons_of_mem _ hk')

theorem eraseKeys_absorb (ks : List String) (l : Obj) :
    eraseKeys ks (eraseKeys ks l) = eraseKeys ks l :=
  eraseKeys_eq_self_of ks _ fun k hk => lookupKey_eraseKeys_mem k ks l hk

theorem mem_eraseKeys_sub (ks : List String) (l : Obj) :
    ∀ p ∈ eraseKeys ks l, p ∈ l := by
  induction ks generalizing l with
  | nil => intro p hp; exact hp
  | cons k rest ih =>
    intro p hp
    exact mem_eraseKey_sub k l p (ih (eraseKey k l) p hp)

theorem lookupKey_cleanAnnotations_ne (k : String) (m : Obj)
    (h : k ≠ "annotations") :
    lookupKey k (cleanAnnotations m) = lookupKey k m := by
  unfold cleanAnnotations
  split
  · split
    · exact lookupKey_eraseKey_ne _ _ _ h
    · exact lookupKey_setKey_ne _ _ _ _ h
  · rfl

theorem lookupKey_elideEmpty_ne (k f : String) (m : Obj) (h : k ≠ f) :
    lookupKey k (elideEmpty f m) = lookupKey k m := by
  unfold elideEmpty
  split
  · split
    · exact lookupKey_eraseKey_ne _ _ _ h
    · rfl
  · rfl

theorem lookupKey_metadataPhase_ne (k : String) (c : Obj)
    (h : k ≠ "metadata") :
    lookupKey k (metadataPhase c) = lookupKey k c := by
  unfold metadataPhase
  split
  · exact lookupKey_setKey_ne _ _ _ _ h
  · rfl

theorem lookupKey_specErase_ne (k : String) (ks : List String) (c : Obj)
    (h : k ≠ "spec") :
    lookupKey k (specErase ks c) = lookupKey k c := by
  unfold specErase
  split
  · exact lookupKey_setKey_ne _ _ _ _ h
  · rfl

theorem lookupKey_kindPhase_ne (k : String) (c : Obj) (h : k ≠ "spec") :
    lookupKey k (kindPhase c) = lookupKey k c := by
  unfold kindPhase
  split
  · exact lookupKey_specErase_ne _ _ _ h
  · split
    · exact lookupKey_specErase_ne _ _ _ h
    · split
      · exact lookupKey_specErase_ne _ _ _ h
      · split
        · exact lookupKey_specErase_ne _ _ _ h
        · split
          · exact lookupKey_eraseKey_ne _ _ _ h
          · rfl

theorem kindOf_metadataPhase (c : Obj) : kindOf (metadataPhase c) = kindOf c := by
  unfold kindOf
  rw [lookupKey_metadataPhase_ne _ _ (by decide)]

theorem kindOf_eraseKey_status (c : Obj) :
    kindOf (eraseKey "status" c) = kindOf c := by
  unfold kindOf
  rw [lookupKey_eraseKey_ne _ _ _ (by decide)]

theorem kindOf_kindPhase (c : Obj) : kindOf (kindPhase c) = kindOf c := by
  unfold kindOf
  rw [lookupKey_kindPhase_ne _ _ (by decide)]

theorem kindOf_CleanResource (x : Obj) : kindOf (CleanResource x) = kindOf x := by
  unfold CleanResource
  rw [kindOf_kindPhase, kindOf_eraseKey_status, kindOf_metadataPhase]

theorem lookupKey_spec_before_kindPhase (x : Obj) :
    lookupKey "spec" (eraseKey "status" (metadataPhase x)) =
      lookupKey "spec" x := by
  rw [lookupKey_eraseKey_ne _ _ _ (by decide),
    lookupKey_metadataPhase_ne _ _ (by decide)]

/-! ### Fixpoint lemmas: a second pass of each cleaning phase is a no-op -/

theorem mem_elideEmpty_sub (f : String) (x : Obj) :
    ∀ p ∈ elideEmpty f x, p ∈ x := by
  intro p hp
  unfold elideEmpty at hp
  split at hp
  · split at hp
    · exact mem_eraseKey_sub _ _ _ hp
    · exact hp
  · exact hp

theorem elideEmpty_eq_self (f : String) (x : Obj)
    (h : ∀ e, lookupKey f x = some (Value.obj e) → e.isEmpty = false) :
    elideEmpty f x = x := by
  unfold elideEmpty
  split
  · rename_i e heq
    rw [h e heq]
    simp
  · rfl

theorem elideEmpty_post (f : String) (x : Obj) :
    ∀ e, lookupKey f (elideEmpty f x) = some (Value.obj e) →
      e.isEmpty = false := by
  intro e he
  unfold elideEmpty at he
  rcases h : lookupKey f x with _ | v
  · rw [h] at he
    simp only [] at he
    rw [h] at he
    exact Option.noConfusion he
  · cases v with
    | obj e0 =>
      rw [h] at he
      simp only [] at he
      by_cases hem : e0.isEmpty = true
      · rw [if_pos hem] at he
        rw [lookupKey_eraseKey_self] at he
        exact Option.noConfusion he
      · rw [if_neg hem] at he
        rw [h] at he
        have he' : e0 = e := by
          injection he with h1
          injection h1
        rw [← he']
        simpa using hem
    | str s =>
      rw [h] at he
      simp only [] at he
      rw [h] at he
      simp at he
    | num n =>
      rw [h] at he
      simp only [] at he
      rw [h] at he
      simp at he
    | boolV b =>
      rw [h] at he
      simp only [] at he
      rw [h] at he
      simp at he
    | nul =>
      rw [h] at he
      simp only [] at he
      rw [h] at he
      simp at he
    | arr l =>
      rw [h] at he
      simp only [] at he
      rw [h] at he
      simp at he

theorem stripAnnotationKeys_absorb (a : Obj) :
    stripAnnotationKeys (stripAnnotationKeys a) = stripAnnotationKeys a := by
  have h1 : lookupKey "kubectl.kubernetes.io/last-applied-configuration"
      (stripAnnotationKeys a) = none := by
    unfold stripAnnotationKeys
    rw [lookupKey_eraseKey_ne _ _ _ (by decide), lookupKey_eraseKey_self]
  have h2 : lookupKey "deployment.kubernetes.io/revision"
      (stripAnnotationKeys a) = none := by
    unfold stripAnnotationKeys
    rw [lookupKey_eraseKey_self]
  conv_lhs => rw [stripAnnotationKeys]
  rw [eraseKey_eq_self_of_lookup_none _ _ h1, eraseKey_eq_self_of_lookup_none _ _ h2]

theorem cleanAnnotations_eq_self (m : Obj)
    (h : ∀ a, lookupKey "annotations" m = some (Value.obj a) →
      stripAnnotationKeys a = a ∧ a.isEmpty = false ∧
      ∀ p ∈ m, p.1 = "annotations" → p.2 = Value.obj a) :
    cleanAnnotations m = m := by
  unfold cleanAnnotations
  rcases hl : lookupKey "annotations" m with _ | v
  · rfl
  · cases v with
    | obj a =>
      obtain ⟨h1, h2, h3⟩ := h a hl
      simp only [h1, h2]
      simp only [Bool.false_eq_true, if_false]
      exact setKey_eq_self_of _ _ _ h3
    | str s => rfl
    | num n => rfl
    | boolV b => rfl
    | nul => rfl
    | arr l => rfl

theorem cleanAnnotations_post (m : Obj) :
    ∀ a, lookupKey "annotations" (cleanAnnotations m) = some (Value.obj a) →
      stripAnnotationKeys a = a ∧ a.isEmpty = false ∧
      ∀ p ∈ cleanAnnotations m, p.1 = "annotations" → p.2 = Value.obj a := by
  intro a ha
  rcases hl : lookupKey "annotations" m with _ | v
  · have hcm : cleanAnnotations m = m := by
      unfold cleanAnnotations
      rw [hl]
    rw [hcm, hl] at ha
    exact Option.noConfusion ha
  · cases v with
    | obj a0 =>
      by_cases hem : (stripAnnotationKeys a0).isEmpty = true
      · have hcm : cleanAnnotations m = eraseKey "annotations" m := by
          unfold cleanAnnotations
          rw [hl]
          simp only [hem, if_true]
        rw [hcm, lookupKey_eraseKey_self] at ha
        exact Option.noConfusion ha
      · have hcm : cleanAnnotations m =
            setKey "annotations" (Value.obj (stripAnnotationKeys a0)) m := by
          unfold cleanAnnotations
          rw [hl]
          simp only [hem, Bool.false_eq_true, if_false]
        rw [hcm, lookupKey_setKey_self, hl] at ha
        simp only [Option.isSome_some, if_true] at ha
        have haa : a = stripAnnotationKeys a0 := by
          injection ha with h1
          injection h1.symm
        constructor
        · rw [haa]
          exact stripAnnotationKeys_absorb a0
        constructor
        · rw [haa]
          simpa using hem
        · rw [hcm, haa]
          exact mem_setKey_val _ _ _
    | str s =>
      have hcm : cleanAnnotations m = m := by
        unfold cleanAnnotations
        rw [hl]
      rw [hcm, hl] at ha
      simp at ha
    | num n =>
      have hcm : cleanAnnotations m = m := by
        unfold cleanAnnotations
        rw [hl]
      rw [hcm, hl] at ha
      simp at ha
    | boolV b =>
      have hcm : cleanAnnotations m = m := by
        unfold cleanAnnotations
        rw [hl]
      rw [hcm, hl] at ha
      simp at ha
    | nul =>
      have hcm : cleanAnnotations m = m := by
        unfold cleanAnnotations
        rw [hl]
      rw [hcm, hl] at ha
      simp at ha
    | arr l =>
      have hcm : cleanAnnotations m = m := by
        unfold cleanAnnotations
        rw [hl]
      rw [hcm, hl] at ha
      simp at ha

theorem mem_cleanAnnotations_entry (m : Obj) (k : String) (v : Value)
    (hk : k ≠ "annotations") (h : ∀ p ∈ m, p.1 = k → p.2 = v) :
    ∀ p ∈ cleanAnnotations m, p.1 = k → p.2 = v := by
  intro p hp
  unfold cleanAnnotations at hp
  split at hp
  · split at hp
    · exact h p (mem_eraseKey_sub _ _ _ hp)
    · intro hpk
      by_cases hpa : p.1 = "annotations"
      · exact absurd (hpk ▸ hpa) hk
      · exact h p (mem_setKey_other _ _ _ p hp hpa) hpk
  · exact h p hp

theorem lookupKey_cleanMetadata_server (k : String) (m : Obj)
    (hk : k ∈ serverFields) : lookupKey k (cleanMetadata m) = none := by
  have hvals : k ≠ "annotations" ∧ k ≠ "labels" ∧ k ≠ "finalizers" := by
    simp only [serverFields, List.mem_cons, List.not_mem_nil, or_false] at hk
    rcases hk with rfl | rfl | rfl | rfl | rfl | rfl <;>
      exact ⟨by decide, by decide, by decide⟩
  unfold cleanMetadata
  rw [lookupKey_elideEmpty_ne _ _ _ hvals.2.2,
    lookupKey_elideEmpty_ne _ _ _ hvals.2.1,
    lookupKey_cleanAnnotations_ne _ _ hvals.1,
    lookupKey_eraseKeys_mem _ _ _ hk]

theorem cleanMetadata_idem (m : Obj) :
    cleanMetadata (cleanMetadata m) = cleanMetadata m := by
  have h6 : eraseKeys serverFields (cleanMetadata m) = cleanMetadata m :=
    eraseKeys_eq_self_of _ _ fun k hk => lookupKey_cleanMetadata_server k m hk
  have hann : cleanAnnotations (cleanMetadata m) = cleanMetadata m := by
    apply cleanAnnotations_eq_self
    intro a ha
    have hEq : lookupKey "annotations" (cleanMetadata m) =
        lookupKey "annotations"
          (cleanAnnotations (eraseKeys serverFields m)) := by
      unfold cleanMetadata
      rw [lookupKey_elideEmpty_ne _ _ _ (by decide),
        lookupKey_elideEmpty_ne _ _ _ (by decide)]
    rw [hEq] at ha
    obtain ⟨h1, h2, h3⟩ := cleanAnnotations_post (eraseKeys serverFields m) a ha
    refine ⟨h1, h2, ?_⟩
    intro p hp hpk
    have hp' : p ∈ cleanAnnotations (eraseKeys serverFields m) := by
      unfold cleanMetadata at hp
      exact mem_elideEmpty_sub _ _ p (mem_elideEmpty_sub _ _ p hp)
    exact h3 p hp' hpk
  have hlab : elideEmpty "labels" (cleanMetadata m) = cleanMetadata m := by
    apply elideEmpty_eq_self
    intro e he
    have hEq : lookupKey "labels" (cleanMetadata m) =
        lookupKey "labels"
          (elideEmpty "labels"
            (cleanAnnotations (eraseKeys serverFields m))) := by
      unfold cleanMetadata
      rw [lookupKey_elideEmpty_ne _ _ _ (by decide)]
    rw [hEq] at he
    exact elideEmpty_post _ _ e he
  have hfin : elideEmpty "finalizers" (cleanMetadata m) = cleanMetadata m := by
    apply elideEmpty_eq_self
    intro e he
    unfold cleanMetadata at he
    exact elideEmpty_post "finalizers" _ e he
  show elideEmpty "finalizers" (elideEmpty "labels"
    (cleanAnnotations (eraseKeys serverFields (cleanMetadata m)))) =
    cleanMetadata m
  rw [h6, hann, hlab, hfin]

theorem eraseKey_absorb (k : String) (l : Obj) :
    eraseKey k (eraseKey k l) = eraseKey k l :=
  eraseKey_eq_self_of_lookup_none _ _ (lookupKey_eraseKey_self _ _)

theorem metadataPhase_eq_self (c : Obj)
    (h : ∀ mm, lookupKey "metadata" c = some (Value.obj mm) →
      cleanMetadata mm = mm ∧
      ∀ p ∈ c, p.1 = "metadata" → p.2 = Value.obj mm) :
    metadataPhase c = c := by
  unfold metadataPhase
  rcases hl : lookupKey "metadata" c with _ | v
  · rfl
  · cases v with
    | obj mm =>
      obtain ⟨h1, h2⟩ := h mm hl
      simp only [h1]
      exact setKey_eq_self_of _ _ _ h2
    | str s => rfl
    | num n => rfl
    | boolV b => rfl
    | nul => rfl
    | arr l => rfl

theorem metadataPhase_post (x : Obj) :
    ∀ mm, lookupKey "metadata" (metadataPhase x) = some (Value.obj mm) →
      cleanMetadata mm = mm ∧
      ∀ p ∈ metadataPhase x, p.1 = "metadata" → p.2 = Value.obj mm := by
  intro mm hmm
  rcases hl : lookupKey "metadata" x with _ | v
  · have hx : metadataPhase x = x := by
      unfold metadataPhase
      rw [hl]
    rw [hx, hl] at hmm
    exact Option.noConfusion hmm
  · cases v with
    | obj m0 =>
      have hx : metadataPhase x =
          setKey "metadata" (Value.obj (cleanMetadata m0)) x := by
        unfold metadataPhase
        rw [hl]
      rw [hx, lookupKey_setKey_self, hl] at hmm
      simp only [Option.isSome_some, if_true] at hmm
      have hmmEq : mm = cleanMetadata m0 := by
        injection hmm with h1
        injection h1.symm
      constructor
      · rw [hmmEq]
        exact cleanMetadata_idem m0
      · rw [hx, hmmEq]
        exact mem_setKey_val _ _ _
    | str s =>
      have hx : metadataPhase x = x := by
        unfold metadataPhase
        rw [hl]
      rw [hx, hl] at hmm
      simp at hmm
    | num n =>
      have hx : metadataPhase x = x := by
        unfold metadataPhase
        rw [hl]
      rw [hx, hl] at hmm
      simp at hmm
    | boolV b =>
      have hx : metadataPhase x = x := by
        unfold metadataPhase
        rw [hl]
      rw [hx, hl] at hmm
      simp at hmm
    | nul =>
      have hx : metadataPhase x = x := by
        unfold metadataPhase
        rw [hl]
      rw [hx, hl] at hmm
      simp at hmm
    | arr l =>
      have hx : metadataPhase x = x := by
        unfold metadataPhase
        rw [hl]
      rw [hx, hl] at hmm
      simp at hmm

theorem mem_specErase_entry (ks : List String) (c : Obj) :
    ∀ p ∈ specErase ks c, p.1 ≠ "spec" → p ∈ c := by
  intro p hp hps
  unfold specErase at hp
  split at hp
  · exact mem_setKey_other _ _ _ p hp hps
  · exact hp

theorem mem_kindPhase_entry (c : Obj) :
    ∀ p ∈ kindPhase c, p.1 ≠ "spec" → p ∈ c := by
  intro p hp hps
  unfold kindPhase at hp
  split_ifs at hp
  · exact mem_specErase_entry _ _ p hp hps
  · exact mem_specErase_entry _ _ p hp hps
  · exact mem_specErase_entry _ _ p hp hps
  · exact mem_specErase_entry _ _ p hp hps
  · exact mem_eraseKey_sub _ _ p hp
  · exact hp

theorem specErase_eq_self (ks : List String) (c : Obj)
    (h : ∀ sp, lookupKey "spec" c = some (Value.obj sp) →
      eraseKeys ks sp = sp ∧
      ∀ p ∈ c, p.1 = "spec" → p.2 = Value.obj sp) :
    specErase ks c = c := by
  unfold specErase
  rcases hl : lookupKey "spec" c with _ | v
  · rfl
  · cases v with
    | obj sp =>
      obtain ⟨h1, h2⟩ := h sp hl
      simp only [h1]
      exact setKey_eq_self_of _ _ _ h2
    | str s => rfl
    | num n => rfl
    | boolV b => rfl
    | nul => rfl
    | arr l => rfl

theorem specErase_post (ks : List String) (x : Obj) :
    ∀ sp, lookupKey "spec" (specErase ks x) = some (Value.obj sp) →
      eraseKeys ks sp = sp ∧
      ∀ p ∈ specErase ks x, p.1 = "spec" → p.2 = Value.obj sp := by
  intro sp hsp
  rcases hl : lookupKey "spec" x with _ | v
  · have hx : specErase ks x = x := by
      unfold specErase
      rw [hl]
    rw [hx, hl] at hsp
    exact Option.noConfusion hsp
  · cases v with
    | obj sp0 =>
      have hx : specErase ks x =
          setKey "spec" (Value.obj (eraseKeys ks sp0)) x := by
        unfold specErase
        rw [hl]
      rw [hx, lookupKey_setKey_self, hl] at hsp
      simp only [Option.isSome_some, if_true] at hsp
      have hspEq : sp = eraseKeys ks sp0 := by
        injection hsp with h1
        injection h1.symm
      constructor
      · rw [hspEq]
        exact eraseKeys_absorb ks sp0
      · rw [hx, hspEq]
        exact mem_setKey_val _ _ _
    | str s =>
      have hx : specErase ks x = x := by
        unfold specErase
        rw [hl]
      rw [hx, hl] at hsp
      simp at hsp
    | num n =>
      have hx : specErase ks x = x := by
        unfold specErase
        rw [hl]
      rw [hx, hl] at hsp
      simp at hsp
    | boolV b =>
      have hx : specErase ks x = x := by
        unfold specErase
        rw [hl]
      rw [hx, hl] at hsp
      simp at hsp
    | nul =>
      have hx : specErase ks x = x := by
        unfold specErase
        rw [hl]
      rw [hx, hl] at hsp
      simp at hsp
    | arr l =>
      have hx : specErase ks x = x := by
        unfold specErase
        rw [hl]
      rw [hx, hl] at hsp
      simp at hsp

theorem specErase_absorb (ks : List String) (c : Obj) :
    specErase ks (specErase ks c) = specErase ks c :=
  specErase_eq_self ks _ (specErase_post ks c)

theorem kindOf_specErase (ks : List String) (c : Obj) :
    kindOf (specErase ks c) = kindOf c := by
  unfold kindOf
  rw [lookupKey_specErase_ne _ _ _ (by decide)]

theorem kindPhase_absorb (c : Obj) : kindPhase (kindPhase c) = kindPhase c := by
  set d := kindPhase c with hd
  have hkd : kindOf d = kindOf c := by
    rw [hd]
    exact kindOf_kindPhase c
  by_cases h1 : kindOf c = "Service"
  · have e1 : d = specErase ["clusterIP", "clusterIPs", "ipFamilies",
        "ipFamilyPolicy"] c := by
      rw [hd]
      unfold kindPhase
      rw [if_pos h1]
    show kindPhase d = d
    unfold kindPhase
    rw [if_pos (hkd.trans h1)]
    rw [e1, specErase_absorb]
  · by_cases h2 : kindOf c = "Deployment"
    · have e1 : d = specErase ["progressDeadlineSeconds", "revisionHistoryLimit",
          "replicas"] c := by
        rw [hd]
        unfold kindPhase
        rw [if_neg h1, if_pos h2]
      show kindPhase d = d
      unfold kindPhase
      rw [if_neg (hkd.trans_ne (by rw [h2]; decide)), if_pos (hkd.trans h2)]
      rw [e1, specErase_absorb]
    · by_cases h3 : kindOf c = "StatefulSet"
      · have e1 : d = specErase ["revisionHistoryLimit", "replicas"] c := by
          rw [hd]
          unfold kindPhase
          rw [if_neg h1, if_neg h2, if_pos h3]
        show kindPhase d = d
        unfold kindPhase
        rw [if_neg (hkd.trans_ne (by rw [h3]; decide)),
          if_neg (hkd.trans_ne (by rw [h3]; decide)), if_pos (hkd.trans h3)]
        rw [e1, specErase_absorb]
      · by_cases h4 : kindOf c = "PersistentVolume"
        · have e1 : d = specErase ["claimRef"] c := by
            rw [hd]
            unfold kindPhase
            rw [if_neg h1, if_neg h2, if_neg h3, if_pos h4]
          show kindPhase d = d
          unfold kindPhase
          rw [if_neg (hkd.trans_ne (by rw [h4]; decide)),
            if_neg (hkd.trans_ne (by rw [h4]; decide)),
            if_neg (hkd.trans_ne (by rw [h4]; decide)), if_pos (hkd.trans h4)]
          rw [e1, specErase_absorb]
        · by_cases h5 : kindOf c = "Pod"
          · have e1 : d = eraseKey "spec" c := by
              rw [hd]
              unfold kindPhase
              rw [if_neg h1, if_neg h2, if_neg h3, if_neg h4, if_pos h5]
            show kindPhase d = d
            unfold kindPhase
            rw [if_neg (hkd.trans_ne (by rw [h5]; decide)),
              if_neg (hkd.trans_ne (by rw [h5]; decide)),
              if_neg (hkd.trans_ne (by rw [h5]; decide)),
              if_neg (hkd.trans_ne (by rw [h5]; decide)), if_pos (hkd.trans h5)]
            rw [e1, eraseKey_absorb]
          · have e1 : d = c := by
              rw [hd]
              unfold kindPhase
              rw [if_neg h1, if_neg h2, if_neg h3, if_neg h4, if_neg h5]
            show kindPhase d = d
            unfold kindPhase
            rw [if_neg (hkd.trans_ne h1), if_neg (hkd.trans_ne h2),
              if_neg (hkd.trans_ne h3), if_neg (hkd.trans_ne h4),
              if_neg (hkd.trans_ne h5)]

theorem metadataPhase_fix_clean (x : Obj) :
    metadataPhase (CleanResource x) = CleanResource x := by
  apply metadataPhase_eq_self
  intro mm hmm
  have hEq : lookupKey "metadata" (CleanResource x) =
      lookupKey "metadata" (metadataPhase x) := by
    unfold CleanResource
    rw [lookupKey_kindPhase_ne _ _ (by decide),
      lookupKey_eraseKey_ne _ _ _ (by decide)]
  rw [hEq] at hmm
  obtain ⟨h1, h2⟩ := metadataPhase_post x mm hmm
  refine ⟨h1, ?_⟩
  intro p hp hpk
  have hps : p.1 ≠ "spec" := by
    rw [hpk]
    decide
  have hp1 : p ∈ eraseKey "status" (metadataPhase x) := by
    unfold CleanResource at hp
    exact mem_kindPhase_entry _ p hp hps
  exact h2 p (mem_eraseKey_sub _ _ _ hp1) hpk

theorem status_fix_clean (x : Obj) :
    eraseKey "status" (CleanResource x) = CleanResource x := by
  apply eraseKey_eq_self_of_lookup_none
  unfold CleanResource
  rw [lookupKey_kindPhase_ne _ _ (by decide), lookupKey_eraseKey_self]

/-! ### Lemmas about the text-normalization pipeline -/

theorem twoStepList {motive : List Char → Prop} (h0 : motive [])
    (h1 : ∀ c, motive [c])
    (h2 : ∀ x y rest, motive rest → motive (y :: rest) →
      motive (x :: y :: rest)) :
    ∀ s, motive s
  | [] => h0
  | [c] => h1 c
  | x :: y :: rest =>
    h2 x y rest (twoStepList h0 h1 h2 rest) (twoStepList h0 h1 h2 (y :: rest))

theorem repl2_head (a b r x : Char) (xs : List Char) :
    (∃ t, repl2 a b r (x :: xs) = r :: t) ∨
    (∃ t, repl2 a b r (x :: xs) = x :: t) := by
  cases xs with
  | nil => exact Or.inr ⟨[], rfl⟩
  | cons y rest =>
    by_cases h : x = a ∧ y = b
    · exact Or.inl ⟨repl2 a b r rest, by simp [repl2, h]⟩
    · exact Or.inr ⟨repl2 a b r (y :: rest), by simp [repl2, h]⟩

theorem noPair_cons_of (a b x : Char) (l : List Char)
    (hl : noPair a b l = true)
    (hx : ∀ y t, l = y :: t → ¬(x = a ∧ y = b)) :
    noPair a b (x :: l) = true := by
  cases l with
  | nil => rfl
  | cons y t =>
    have hny := hx y t rfl
    simp only [noPair, Bool.and_eq_true, Bool.not_eq_true']
    exact ⟨by simpa using hny, hl⟩

theorem noPair_tail (a b x : Char) (l : List Char)
    (h : noPair a b (x :: l) = true) : noPair a b l = true := by
  cases l with
  | nil => rfl
  | cons y t =>
    simp only [noPair, Bool.and_eq_true] at h
    exact h.2

theorem noPair_cons_head (a b x y : Char) (t : List Char)
    (h : noPair a b (x :: y :: t) = true) : ¬(x = a ∧ y = b) := by
  simp only [noPair, Bool.and_eq_true, Bool.not_eq_true'] at h
  simpa using h.1

theorem noPair_repl2_self (a b r : Char) (ha : r ≠ a) (hb : r ≠ b) :
    ∀ s, noPair a b (repl2 a b r s) = true := by
  intro s
  induction s using twoStepList with
  | h0 => rfl
  | h1 c => rfl
  | h2 x y rest ih1 ih2 =>
    by_cases h : x = a ∧ y = b
    · have hstep : repl2 a b r (x :: y :: rest) = r :: repl2 a b r rest := by
        simp [repl2, h]
      rw [hstep]
      apply noPair_cons_of _ _ _ _ ih1
      intro z t hzt hc
      exact ha hc.1
    · have hstep : repl2 a b r (x :: y :: rest) =
          x :: repl2 a b r (y :: rest) := by
        simp [repl2, h]
      rw [hstep]
      apply noPair_cons_of _ _ _ _ ih2
      intro z t hzt hc
      rcases repl2_head a b r y rest with ⟨t', ht'⟩ | ⟨t', ht'⟩
      · rw [ht'] at hzt
        injection hzt with hz _
        rw [← hz] at hc
        exact hb hc.2
      · rw [ht'] at hzt
        injection hzt with hz _
        rw [← hz] at hc
        exact h hc

theorem noPair_repl2_other (a b c d r : Char) (hra : r ≠ a) (hrb : r ≠ b) :
    ∀ s, noPair a b s = true → noPair a b (repl2 c d r s) = true := by
  intro s
  induction s using twoStepList with
  | h0 => intro _; rfl
  | h1 e => intro _; rfl
  | h2 x y rest ih1 ih2 =>
    intro hs
    have hhead := noPair_cons_head a b x y rest hs
    have htail := noPair_tail a b x (y :: rest) hs
    by_cases h : x = c ∧ y = d
    · have hstep : repl2 c d r (x :: y :: rest) = r :: repl2 c d r rest := by
        simp [repl2, h]
      rw [hstep]
      apply noPair_cons_of _ _ _ _ (ih1 (noPair_tail _ _ _ _ htail))
      intro z t hzt hc
      exact hra hc.1
    · have hstep : repl2 c d r (x :: y :: rest) =
          x :: repl2 c d r (y :: rest) := by
        simp [repl2, h]
      rw [hstep]
      apply noPair_cons_of _ _ _ _ (ih2 htail)
      intro z t hzt hc
      rcases repl2_head c d r y rest with ⟨t', ht'⟩ | ⟨t', ht'⟩
      · rw [ht'] at hzt
        injection hzt with hz _
        rw [← hz] at hc
        exact hrb hc.2
      · rw [ht'] at hzt
        injection hzt with hz _
        rw [← hz] at hc
        exact hhead hc

theorem noPair_repl1 (a b e r : Char) (hra : r ≠ a) (hrb : r ≠ b) :
    ∀ s, noPair a b s = true → noPair a b (repl1 e r s) = true := by
  intro s
  induction s using twoStepList with
  | h0 => intro _; rfl
  | h1 c => intro _; rfl
  | h2 x y rest ih1 ih2 =>
    intro hs
    have hhead := noPair_cons_head a b x y rest hs
    have htail := noPair_tail a b x (y :: rest) hs
    have hfx : repl1 e r (x :: y :: rest) =
        (if x = e then r else x) :: repl1 e r (y :: rest) := by
      simp [repl1]
    rw [hfx]
    apply noPair_cons_of _ _ _ _ (ih2 htail)
    intro z t hzt hc
    have hz : z = (if y = e then r else y) := by
      have hy : repl1 e r (y :: rest) =
          (if y = e then r else y) :: repl1 e r rest := by
        simp [repl1]
      rw [hy] at hzt
      injection hzt with h1 _
      exact h1.symm
    by_cases hx : x = e
    · rw [if_pos hx] at hc
      exact hra hc.1
    · rw [if_neg hx] at hc
      by_cases hyy : y = e
      · rw [hz, if_pos hyy] at hc
        exact hrb hc.2
      · rw [hz, if_neg hyy] at hc
        exact hhead hc

theorem normalizeGoString_noEscapes (s : String) :
    noEscapes (normalizeGoString s) = true := by
  unfold noEscapes normalizeGoString
  have h2 := noPair_repl2_self '\\' 'n' '\n' (by decide) (by decide)
    (repl2 '\r' '\n' '\n' s.data)
  have h3n := noPair_repl2_other '\\' 'n' '\\' 't' '\t' (by decide) (by decide)
    _ h2
  have h3t := noPair_repl2_self '\\' 't' '\t' (by decide) (by decide)
    (repl2 '\\' 'n' '\n' (repl2 '\r' '\n' '\n' s.data))
  have h4n := noPair_repl2_other '\\' 'n' '\\' 'r' '\r' (by decide) (by decide)
    _ h3n
  have h4t := noPair_repl2_other '\\' 't' '\\' 'r' '\r' (by decide) (by decide)
    _ h3t
  have h4r := noPair_repl2_self '\\' 'r' '\r' (by decide) (by decide)
    (repl2 '\\' 't' '\t' (repl2 '\\' 'n' '\n' (repl2 '\r' '\n' '\n' s.data)))
  have h5n := noPair_repl1 '\\' 'n' nbspChar ' ' (by decide) (by decide) _ h4n
  have h5t := noPair_repl1 '\\' 't' nbspChar ' ' (by decide) (by decide) _ h4t
  have h5r := noPair_repl1 '\\' 'r' nbspChar ' ' (by decide) (by decide) _ h4r
  simp only [String.data]
  rw [h5n, h5t, h5r]
  rfl

/-! ### Preservation of spec sub-fields by the kind dispatch -/

theorem specSub_congr (c c' : Obj) (sub : String)
    (h : lookupKey "spec" c = lookupKey "spec" c') :
    specSub c sub = specSub c' sub := by
  unfold specSub
  rw [h]

theorem specSub_specErase (ks : List String) (c : Obj) (sub : String)
    (hsub : sub ∉ ks) : specSub (specErase ks c) sub = specSub c sub := by
  rcases hl : lookupKey "spec" c with _ | v
  · have hx : specErase ks c = c := by
      unfold specErase
      rw [hl]
    rw [hx]
  · cases v with
    | obj sp =>
      have hx : specErase ks c =
          setKey "spec" (Value.obj (eraseKeys ks sp)) c := by
        unfold specErase
        rw [hl]
      unfold specSub
      rw [hx, lookupKey_setKey_self, hl]
      simp only [Option.isSome_some, if_true]
      exact lookupKey_eraseKeys_notMem sub ks sp hsub
    | str s =>
      have hx : specErase ks c = c := by
        unfold specErase
        rw [hl]
      rw [hx]
    | num n =>
      have hx : specErase ks c = c := by
        unfold specErase
        rw [hl]
      rw [hx]
    | boolV b =>
      have hx : specErase ks c = c := by
        unfold specErase
        rw [hl]
      rw [hx]
    | nul =>
      have hx : specErase ks c = c := by
        unfold specErase
        rw [hl]
      rw [hx]
    | arr l =>
      have hx : specErase ks c = c := by
        unfold specErase
        rw [hl]
      rw [hx]

theorem specSub_kindPhase (c : Obj) (sub : String)
    (hPod : kindOf c ≠ "Pod")
    (h1 : sub ∉ (["clusterIP", "clusterIPs", "ipFamilies",
      "ipFamilyPolicy"] : List String))
    (h2 : sub ∉ (["progressDeadlineSeconds", "revisionHistoryLimit",
      "replicas"] : List String))
    (h3 : sub ∉ (["revisionHistoryLimit", "replicas"] : List String))
    (h4 : sub ∉ (["claimRef"] : List String)) :
    specSub (kindPhase c) sub = specSub c sub := by
  unfold kindPhase
  by_cases hs : kindOf c = "Service"
  · rw [if_pos hs]
    exact specSub_specErase _ _ _ h1
  · rw [if_neg hs]
    by_cases hd : kindOf c = "Deployment"
    · rw [if_pos hd]
      exact specSub_specErase _ _ _ h2
    · rw [if_neg hd]
      by_cases hss : kindOf c = "StatefulSet"
      · rw [if_pos hss]
        exact specSub_specErase _ _ _ h3
      · rw [if_neg hss]
        by_cases hpv : kindOf c = "PersistentVolume"
        · rw [if_pos hpv]
          exact specSub_specErase _ _ _ h4
        · rw [if_neg hpv, if_neg hPod]

theorem specSub_CleanResource_pres (x : Obj) (sub : String)
    (hPod : kindOf x ≠ "Pod")
    (h1 : sub ∉ (["clusterIP", "clusterIPs", "ipFamilies",
      "ipFamilyPolicy"] : List String))
    (h2 : sub ∉ (["progressDeadlineSeconds", "revisionHistoryLimit",
      "replicas"] : List String))
    (h3 : sub ∉ (["revisionHistoryLimit", "replicas"] : List String))
    (h4 : sub ∉ (["claimRef"] : List String)) :
    specSub (CleanResource x) sub = specSub x sub := by
  have hPod' : kindOf (eraseKey "status" (metadataPhase x)) ≠ "Pod" := by
    rw [kindOf_eraseKey_status, kindOf_metadataPhase]
    exact hPod
  unfold CleanResource
  rw [specSub_kindPhase _ _ hPod' h1 h2 h3 h4]
  exact specSub_congr _ _ _ (lookupKey_spec_before_kindPhase x)

/-! ### Keys of the written document -/

theorem keysOf_setKey (k : String) (v : Value) (l : Obj) :
    keysOf (setKey k v l) = keysOf l := by
  induction l with
  | nil => rfl
  | cons p rest ih =>
    obtain ⟨a, b⟩ := p
    by_cases h : a = k
    · simp [setKey, keysOf, h] at ih ⊢
      exact ih
    · simp [setKey, keysOf, h] at ih ⊢
      exact ih

theorem keysOf_configMapNormalize (resType : String) (doc : Obj) :
    keysOf (configMapNormalize resType doc) = keysOf doc := by
  unfold configMapNormalize
  split
  · split
    · exact keysOf_setKey _ _ _
    · rfl
  · rfl

theorem keysOf_optField (k : String) (obj : Obj) (base : Obj) :
    keysOf (optField k obj base) =
      keysOf base ++ (if (lookupKey k obj).isSome then [k] else []) := by
  unfold optField
  rcases h : lookupKey k obj with _ | v
  · simp [keysOf]
  · simp [keysOf]

theorem keysOf_buildResourceYAML (resType : String) (obj : Obj) :
    keysOf (buildResourceYAML resType obj) =
      ["apiVersion", "kind", "metadata"]
        ++ (if (lookupKey "spec" obj).isSome then ["spec"] else [])
        ++ (if (lookupKey "data" obj).isSome then ["data"] else [])
        ++ (if (lookupKey "rules" obj).isSome then ["rules"] else []) := by
  unfold buildResourceYAML
  rw [keysOf_configMapNormalize, keysOf_optField, keysOf_optField,
    keysOf_optField]
  simp [keysOf, List.append_assoc]

/-! ### Claim theorems -/

/-- C1: the sanitizer is idempotent — for every object `x` (an arbitrary
string-keyed map), `CleanResource (CleanResource x) = CleanResource x`. -/
theorem cleanResource_idempotent (x : Obj) :
    CleanResource (CleanResource x) = CleanResource x := by
  show kindPhase (eraseKey "status" (metadataPhase (CleanResource x))) =
    CleanResource x
  rw [metadataPhase_fix_clean, status_fix_clean]
  exact kindPhase_absorb _

/-- C2 (counterexample): a Service whose `spec.type` is `"ClusterIP"`
(not NodePort) and whose port entry carries a `nodePort` keeps that
`nodePort` after sanitization — the claim that it is stripped is false
for `CleanResource` in src/main.go. -/
theorem service_nodePort_kept_counterexample :
    lookupKey "type" (getObj (lookupKey "spec" svcClusterIP)) =
      some (Value.str "ClusterIP") ∧
    lookupKey "nodePort" (headObj (getArr (lookupKey "ports"
      (getObj (lookupKey "spec" (CleanResource svcClusterIP)))))) =
      some (Value.num 30080) := by
  constructor
  · rfl
  · rfl

/-- C2 (amended): for every Service object, `CleanResource` leaves
`spec.ports` — including every `nodePort` key — unchanged, for every
service type.  In particular `nodePort` is preserved when the type is
NodePort, but it is not removed for other types either (the conditional
stripping exists only in the historical program variants). -/
theorem cleanResource_service_ports_unchanged (x : Obj)
    (h : kindOf x = "Service") :
    specSub (CleanResource x) "ports" = specSub x "ports" := by
  apply specSub_CleanResource_pres
  · rw [h]
    decide
  · decide
  · decide
  · decide
  · decide

/-- C2 (witness): the amended theorem applies to a concrete NodePort
Service. -/
theorem cleanResource_service_ports_unchanged_witness :
    kindOf svcNodePort = "Service" ∧
    specSub (CleanResource svcNodePort) "ports" =
      specSub svcNodePort "ports" :=
  ⟨rfl, cleanResource_service_ports_unchanged svcNodePort rfl⟩

/-- C3: for every object, the sanitized result has no top-level `status`
key. -/
theorem cleanResource_no_status (x : Obj) :
    lookupKey "status" (CleanResource x) = none := by
  unfold CleanResource
  rw [lookupKey_kindPhase_ne _ _ (by decide), lookupKey_eraseKey_self]

/-- C4 (counterexample): a Deployment whose pod-template metadata carries
a `creationTimestamp` keeps it after sanitization — `CleanResource` never
recurses into `spec.template.metadata`, so the claimed recursive metadata
normalization is false. -/
theorem template_metadata_kept_counterexample :
    lookupKey "creationTimestamp" (getObj (lookupKey "metadata"
      (getObj (lookupKey "template" (getObj (lookupKey "spec"
        (CleanResource depWithTemplateMeta))))))) =
      some (Value.str "2024-01-01T00:00:00Z") := by
  rfl

/-- C4 (amended): metadata normalization applies only to the object's own
top-level `metadata`; for every object whose kind is not `"Pod"` (a Pod
loses its whole spec), the value at `spec.template` — embedded
pod-template metadata included — is unchanged by the sanitizer. -/
theorem cleanResource_template_unchanged (x : Obj) (h : kindOf x ≠ "Pod") :
    specSub (CleanResource x) "template" = specSub x "template" := by
  apply specSub_CleanResource_pres x "template" h
  · decide
  · decide
  · decide
  · decide

/-- C4 (witness): the amended theorem applies to a concrete Deployment
with embedded template metadata. -/
theorem cleanResource_template_unchanged_witness :
    kindOf depWithTemplateMeta ≠ "Pod" ∧
    specSub (CleanResource depWithTemplateMeta) "template" =
      specSub depWithTemplateMeta "template" :=
  ⟨by decide, cleanResource_template_unchanged depWithTemplateMeta (by decide)⟩

/-- C5: for a secret whose `metadata` is a map, `ShouldBackupSecret`
returns false exactly when the name matches the token naming conventions
(`default-token` or `-token-` substrings), or the name carries the Helm
release-storage prefix, or the declared type is one of the excluded
system types (Docker registry config, service-account token, basic auth,
TLS, Helm release storage); otherwise — e.g. an ordinary name with a
user-defined Opaque type — it returns true. -/
theorem shouldBackupSecret_iff (x md : Obj)
    (h : lookupKey "metadata" x = some (Value.obj md)) :
    ShouldBackupSecret x = false ↔
      (goContains (strAsString (lookupKey "name" md)) "default-token" = true ∨
       goStartsWith (strAsString (lookupKey "name" md))
         "sh.helm.release.v1." = true ∨
       goContains (strAsString (lookupKey "name" md)) "-token-" = true ∨
       strAsString (lookupKey "type" x) ∈ excludedSecretTypes) := by
  unfold ShouldBackupSecret
  rw [h]
  simp only []
  split_ifs with h1 h2
  · simp only [Bool.or_eq_true] at h1
    simp only [eq_self_iff_true, true_iff]
    tauto
  · have h2' : strAsString (lookupKey "type" x) ∈ excludedSecretTypes := by
      simpa using h2
    simp only [eq_self_iff_true, true_iff]
    tauto
  · have h1' : ¬ goContains (strAsString (lookupKey "name" md))
        "default-token" = true ∧
        ¬ goStartsWith (strAsString (lookupKey "name" md))
          "sh.helm.release.v1." = true ∧
        ¬ goContains (strAsString (lookupKey "name" md)) "-token-" = true := by
      simpa [not_or, and_assoc] using h1
    have h2' : strAsString (lookupKey "type" x) ∉ excludedSecretTypes := by
      simpa using h2
    constructor
    · intro hfalse
      exact absurd hfalse (by simp)
    · intro hr
      rcases hr with hr | hr | hr | hr
      · exact absurd hr h1'.1
      · exact absurd hr h1'.2.1
      · exact absurd hr h1'.2.2
      · exact absurd hr h2'

/-- C5 (witness): the filter theorem applies to a concrete Opaque secret
with an ordinary name. -/
theorem shouldBackupSecret_iff_witness :
    lookupKey "metadata" secretOpaque = some (Value.obj secretOpaqueMeta) ∧
    (ShouldBackupSecret secretOpaque = false ↔
      (goContains (strAsString (lookupKey "name" secretOpaqueMeta))
        "default-token" = true ∨
       goStartsWith (strAsString (lookupKey "name" secretOpaqueMeta))
         "sh.helm.release.v1." = true ∨
       goContains (strAsString (lookupKey "name" secretOpaqueMeta))
         "-token-" = true ∨
       strAsString (lookupKey "type" secretOpaque) ∈ excludedSecretTypes)) :=
  ⟨rfl, shouldBackupSecret_iff secretOpaque secretOpaqueMeta rfl⟩

/-- C6 (counterexample): a payload string with literal newline, tab and
carriage-return escapes plus a CRLF normalizes to a string that still
contains a carriage-return control character (the CRLF pass runs before
the escape decoding), so `only LF as line-ending control characters` is
false. -/
theorem normalization_keeps_cr_counterexample :
    lookupKey "k" (processStringMapValues payloadEscapes) =
      some (Value.str "\n\t\r\n") ∧
    '\r' ∈ ("\n\t\r\n" : String).data := by
  constructor
  · have hn : normalizeGoString "\\n\\t\\r\r\n" = "\n\t\r\n" := by decide
    simp only [payloadEscapes, processStringMapValues, hn, lookupKey]
    simp
  · decide

/-- C6 (amended): for every payload map, every string value reachable
through nested maps has, after `processStringMapValues`, no literal
two-character backslash escape for newline, tab or carriage-return
remaining; decoded `\r` escapes however yield real CR characters, so the
output may still contain CR. -/
theorem allStringsClean_processed (m : Obj) :
    allStringsClean (processStringMapValues m) = true := by
  induction m using processStringMapValues.induct <;>
    simp_all [processStringMapValues, allStringsClean,
      normalizeGoString_noEscapes]

theorem backupKindStep_none (ss cl : Bool) (rt : String) :
    backupKindStep ss cl rt none = ⟨false, []⟩ := by
  unfold backupKindStep
  cases hfr : findResource rt with
  | none => rfl
  | some info =>
    simp only []
    split_ifs <;> rfl

theorem backupKindStep_emptyList (ss cl : Bool) (rt : String)
    (resources : List Obj) (h : resources.isEmpty = true) :
    backupKindStep ss cl rt (some resources) = ⟨false, []⟩ := by
  unfold backupKindStep
  cases hfr : findResource rt with
  | none => rfl
  | some info =>
    simp only []
    split_ifs <;> rfl

theorem backupKindStep_cases (ss cl : Bool) (rt : String)
    (resources : List Obj) (hemp : resources.isEmpty = false) :
    backupKindStep ss cl rt (some resources) = ⟨false, []⟩ ∨
    backupKindStep ss cl rt (some resources) =
      ⟨true, ((if rt == "secrets" then resources.filter ShouldBackupSecret
          else resources).map (fun r => nameOf r ++ ".yaml"))⟩ := by
  unfold backupKindStep
  cases hfr : findResource rt with
  | none => exact Or.inl rfl
  | some info =>
    simp only []
    by_cases hc : (!cl) = true
    · rw [if_pos hc]
      exact Or.inl rfl
    · rw [if_neg hc]
      by_cases hs : (ss && rt == "secrets") = true
      · rw [if_pos hs]
        exact Or.inl rfl
      · rw [if_neg hs]
        by_cases hn : (!info.namespaced) = true
        · rw [if_pos hn]
          exact Or.inl rfl
        · rw [if_neg hn]
          rw [if_neg (show ¬(resources.isEmpty = true) by simp [hemp])]
          exact Or.inr rfl

/-- C7 (counterexample): for the `secrets` kind the directory is created
before the eligibility filter runs — listing one excluded secret creates
the kind directory and then writes nothing, leaving it empty, contrary to
the claim that no kind directory is created when the surviving set is
empty. -/
theorem backupKindStep_secrets_counterexample :
    (backupKindStep false true "secrets" (some [secretSAToken])).dirCreated
      = true ∧
    (backupKindStep false true "secrets" (some [secretSAToken])).files
      = [] := by
  constructor
  · rfl
  · rfl

/-- C7 (amended): the kind directory is skipped whenever the listing
failed or returned no instances, and for every non-secret kind a created
directory receives at least one file; for `secrets`, however, the
directory is created before the eligibility filter, so it can remain
empty when the filter excludes every listed secret. -/
theorem backupKindStep_dir_policy (ss cl : Bool) (rt : String)
    (listed : Option (List Obj)) :
    ((backupKindStep ss cl rt listed).dirCreated = true →
      ∃ l, listed = some l ∧ l ≠ []) ∧
    (rt ≠ "secrets" → (backupKindStep ss cl rt listed).dirCreated = true →
      (backupKindStep ss cl rt listed).files ≠ []) := by
  constructor
  · intro hdir
    rcases listed with _ | resources
    · rw [backupKindStep_none] at hdir
      simp at hdir
    · by_cases hemp : resources.isEmpty = true
      · rw [backupKindStep_emptyList ss cl rt resources hemp] at hdir
        simp at hdir
      · refine ⟨resources, rfl, ?_⟩
        intro hnil
        rw [hnil] at hemp
        exact hemp rfl
  · intro hrt hdir
    rcases listed with _ | resources
    · rw [backupKindStep_none] at hdir
      simp at hdir
    · by_cases hemp : resources.isEmpty = true
      · rw [backupKindStep_emptyList ss cl rt resources hemp] at hdir
        simp at hdir
      · have hemp' : resources.isEmpty = false := by
          revert hemp
          cases resources.isEmpty <;> simp
        have hne : resources ≠ [] := by
          intro hnil
          rw [hnil] at hemp
          exact hemp rfl
        rcases backupKindStep_cases ss cl rt resources hemp' with hres | hres
        · rw [hres] at hdir
          simp at hdir
        · rw [hres]
          have hsec : (rt == "secrets") = false := by
            simp [hrt]
          simp [hsec, hne]

/-- C7 (witness): the amended theorem applies to a listed deployment —
its directory is created and receives a file. -/
theorem backupKindStep_dir_policy_witness :
    ("deployments" ≠ "secrets") ∧
    (backupKindStep false true "deployments" (some [depListed])).dirCreated
      = true ∧
    (backupKindStep false true "deployments" (some [depListed])).files
      ≠ [] :=
  ⟨by decide, rfl,
    (backupKindStep_dir_policy false true "deployments"
      (some [depListed])).2 (by decide) rfl⟩

/-- C8: for every Deployment or StatefulSet object, the sanitizer never
removes the selector — the value at `spec.selector` (its `matchLabels`
included) in the sanitized output equals the value in the input. -/
theorem cleanResource_preserves_selector (x : Obj)
    (h : kindOf x = "Deployment" ∨ kindOf x = "StatefulSet") :
    specSub (CleanResource x) "selector" = specSub x "selector" := by
  apply specSub_CleanResource_pres
  · rcases h with h | h
    · rw [h]
      decide
    · rw [h]
      decide
  · decide
  · decide
  · decide
  · decide

/-- C8 (witness): the selector theorem applies to a concrete StatefulSet
with a matchLabels selector. -/
theorem cleanResource_preserves_selector_witness :
    (kindOf stsWithSelector = "Deployment" ∨
      kindOf stsWithSelector = "StatefulSet") ∧
    specSub (CleanResource stsWithSelector) "selector" =
      specSub stsWithSelector "selector" :=
  ⟨Or.inr rfl, cleanResource_preserves_selector stsWithSelector (Or.inr rfl)⟩

/-- C9: the document written for a namespaced object contains exactly the
top-level keys `apiVersion`, `kind` and `metadata`, plus `spec`, `data`
and `rules` when present in the sanitized object; every other top-level
key of the sanitized object — `stringData` included — is omitted. -/
theorem buildResourceYAML_keys (resType : String) (obj : Obj) (k : String) :
    k ∈ keysOf (buildResourceYAML resType obj) ↔
      (k = "apiVersion" ∨ k = "kind" ∨ k = "metadata" ∨
        ((k = "spec" ∨ k = "data" ∨ k = "rules") ∧
          (lookupKey k obj).isSome = true)) := by
  rw [keysOf_buildResourceYAML]
  constructor
  · intro hmem
    rcases List.mem_append.mp hmem with hmem1 | hr'
    · rcases List.mem_append.mp hmem1 with hmem2 | hd'
      · rcases List.mem_append.mp hmem2 with hmem3 | hs'
        · simp only [List.mem_cons, List.not_mem_nil, or_false] at hmem3
          rcases hmem3 with rfl | rfl | rfl
          · exact Or.inl rfl
          · exact Or.inr (Or.inl rfl)
          · exact Or.inr (Or.inr (Or.inl rfl))
        · by_cases hs : (lookupKey "spec" obj).isSome = true
          · rw [if_pos hs] at hs'
            simp only [List.mem_cons, List.not_mem_nil, or_false] at hs'
            subst hs'
            exact Or.inr (Or.inr (Or.inr ⟨Or.inl rfl, hs⟩))
          · rw [if_neg hs] at hs'
            simp at hs'
      · by_cases hd : (lookupKey "data" obj).isSome = true
        · rw [if_pos hd] at hd'
          simp only [List.mem_cons, List.not_mem_nil, or_false] at hd'
          subst hd'
          exact Or.inr (Or.inr (Or.inr ⟨Or.inr (Or.inl rfl), hd⟩))
        · rw [if_neg hd] at hd'
          simp at hd'
    · by_cases hrr : (lookupKey "rules" obj).isSome = true
      · rw [if_pos hrr] at hr'
        simp only [List.mem_cons, List.not_mem_nil, or_false] at hr'
        subst hr'
        exact Or.inr (Or.inr (Or.inr ⟨Or.inr (Or.inr rfl), hrr⟩))
      · rw [if_neg hrr] at hr'
        simp at hr'
  · intro hr
    rcases hr with rfl | rfl | rfl | ⟨hk, hsome⟩
    · refine List.mem_append.mpr (Or.inl ?_)
      refine List.mem_append.mpr (Or.inl ?_)
      refine List.mem_append.mpr (Or.inl ?_)
      simp
    · refine List.mem_append.mpr (Or.inl ?_)
      refine List.mem_append.mpr (Or.inl ?_)
      refine List.mem_append.mpr (Or.inl ?_)
      simp
    · refine List.mem_append.mpr (Or.inl ?_)
      refine List.mem_append.mpr (Or.inl ?_)
      refine List.mem_append.mpr (Or.inl ?_)
      simp
    · rcases hk with rfl | rfl | rfl
      · refine List.mem_append.mpr (Or.inl ?_)
        refine List.mem_append.mpr (Or.inl ?_)
        refine List.mem_append.mpr (Or.inr ?_)
        rw [if_pos hsome]
        simp
      · refine List.mem_append.mpr (Or.inl ?_)
        refine List.mem_append.mpr (Or.inr ?_)
        rw [if_pos hsome]
        simp
      · refine List.mem_append.mpr (Or.inr ?_)
        rw [if_pos hsome]
        simp

/-- C10: for every object whose declared kind is `"Pod"`, the sanitizer
removes the entire top-level `spec`. -/
theorem cleanResource_pod_spec_removed (x : Obj) (h : kindOf x = "Pod") :
    lookupKey "spec" (CleanResource x) = none := by
  have hk : kindOf (eraseKey "status" (metadataPhase x)) = "Pod" := by
    rw [kindOf_eraseKey_status, kindOf_metadataPhase]
    exact h
  unfold CleanResource kindPhase
  rw [if_neg (by rw [hk]; decide), if_neg (by rw [hk]; decide),
    if_neg (by rw [hk]; decide), if_neg (by rw [hk]; decide), if_pos hk]
  exact lookupKey_eraseKey_self _ _

/-- C10 (witness): the Pod theorem applies to a concrete Pod carrying a
spec. -/
theorem cleanResource_pod_spec_removed_witness :
    kindOf podWithSpec = "Pod" ∧
    lookupKey "spec" (CleanResource podWithSpec) = none :=
  ⟨rfl, cleanResource_pod_spec_removed podWithSpec rfl⟩

end K8sBack
